import Mathlib

/-!
Verification development for the streaming Markdown parser of
`streamdown-tty` (`src/parser/streaming-parser.ts`) and the table
re-parser of `src/utils/enhanced-table-renderer.ts`.

The TypeScript code is shallowly embedded: JS strings are Lean `String`
(scanned through their `List Char` data), JS regular-expression tests and
replaces are embedded as explicit character scans with the same matching
semantics, and the third-party `marked.lexer` grammar is abstracted as a
function `String → Except Unit (List MToken)` that may fail, mirroring the
`try { marked.lexer(...) } catch` structure of `parse()`.
-/

/-- JS whitespace class (`\s`, `trim()`): space, tab, line terminators, and
the Unicode space separators recognised by ECMAScript. -/
def jsWsChars : List Char :=
  [' ', '\t', '\n', '\r', Char.ofNat 11, Char.ofNat 12, Char.ofNat 0xA0,
   Char.ofNat 0x1680, Char.ofNat 0x2000, Char.ofNat 0x2001, Char.ofNat 0x2002,
   Char.ofNat 0x2003, Char.ofNat 0x2004, Char.ofNat 0x2005, Char.ofNat 0x2006,
   Char.ofNat 0x2007, Char.ofNat 0x2008, Char.ofNat 0x2009, Char.ofNat 0x200A,
   Char.ofNat 0x2028, Char.ofNat 0x2029, Char.ofNat 0x202F, Char.ofNat 0x205F,
   Char.ofNat 0x3000, Char.ofNat 0xFEFF]

/-- Decides membership in the JS whitespace class. -/
def isJsWs (c : Char) : Bool := jsWsChars.contains c

/-- Prefix test on character lists (used for JS `startsWith` and for literal
matches inside embedded regex scans). -/
def startsList : List Char → List Char → Bool
  | [], _ => true
  | _ :: _, [] => false
  | p :: ps, c :: cs => p == c && startsList ps cs

/-- JS `String.prototype.trim` on the character list. -/
def jsTrimList (l : List Char) : List Char :=
  ((l.dropWhile isJsWs).reverse.dropWhile isJsWs).reverse

/-- JS `String.prototype.trim`. -/
def jsTrim (s : String) : String := String.mk (jsTrimList s.data)

/-- JS `String.prototype.split(sep)` for a single-character separator, on
character lists.  `split` always returns at least one (possibly empty)
field. -/
def splitChar (sep : Char) : List Char → List (List Char)
  | [] => [[]]
  | c :: cs =>
    match splitChar sep cs with
    | [] => [[]]
    | r :: rs => if c == sep then [] :: r :: rs else (c :: r) :: rs

/-- JS `String.prototype.split(sep)` for a single-character separator. -/
def jsSplitOnChar (sep : Char) (s : String) : List String :=
  (splitChar sep s.data).map String.mk

/-- Replaces every non-overlapping occurrence of the non-empty literal
`pat` by `repl`, scanning left to right — the semantics of a JS global
replace of a literal pattern.  The `Nat` argument is recursion fuel so that
the definition is structural (and kernel-reducible); every step consumes at
least one character, so fuel equal to the input length never runs out and
the fuel-0 arm is unreachable from the wrapper. -/
def replaceAllAux (pat repl : List Char) : Nat → List Char → List Char
  | _, [] => []
  | 0, l => l
  | fuel + 1, c :: cs =>
    if startsList pat (c :: cs) then
      repl ++ replaceAllAux pat repl fuel ((c :: cs).drop pat.length)
    else
      c :: replaceAllAux pat repl fuel cs

/-- JS `s.replace(/pat/g, repl)` for a literal pattern. -/
def jsReplaceAll (s pat repl : String) : String :=
  String.mk (replaceAllAux pat.data repl.data s.data.length s.data)

/-- JS `Array.prototype.join(sep)`. -/
def joinSep (sep : String) : List String → String
  | [] => ""
  | [x] => x
  | x :: y :: xs => x ++ sep ++ joinSep sep (y :: xs)

/-- JS `String.prototype.toLowerCase` (ASCII-faithful; the source only
compares ASCII keywords). -/
def jsToLower (s : String) : String := String.mk (s.data.map Char.toLower)

/-- Finds, for a lazy group `(.*?)` followed by the literal `cl`, the
shortest inner span (containing no newline, since `.` does not match line
terminators) and the remainder after the closing literal. -/
def findClose (cl : List Char) : List Char → Option (List Char × List Char)
  | [] => none
  | c :: cs =>
    if startsList cl (c :: cs) then some ([], (c :: cs).drop cl.length)
    else if c == '\n' then none
    else
      match findClose cl cs with
      | some (i, r) => some (c :: i, r)
      | none => none

/-- JS global lazy replace `s.replace(/op(.*?)cl/g, wl + inner + wr)` for
non-empty literals `op` and `cl`: scan left to right; at each occurrence of
`op`, take the shortest newline-free inner span closed by `cl`; on failure
the character is copied through.  Fuel as in `replaceAllAux`: each step
consumes at least one character. -/
def lazyRepAux (op cl wl wr : List Char) : Nat → List Char → List Char
  | _, [] => []
  | 0, l => l
  | fuel + 1, c :: cs =>
    if startsList op (c :: cs) then
      match findClose cl ((c :: cs).drop op.length) with
      | some (i, r) => wl ++ i ++ wr ++ lazyRepAux op cl wl wr fuel r
      | none => c :: lazyRepAux op cl wl wr fuel cs
    else c :: lazyRepAux op cl wl wr fuel cs

/-- JS global lazy replace wrapper on `String`. -/
def lazyRep (op cl wl wr : String) (s : String) : String :=
  String.mk (lazyRepAux op.data cl.data wl.data wr.data s.data.length s.data)

/-- Digit-string to `Nat` (JS `parseInt(num, 10)` on an all-digit capture;
precision loss of IEEE doubles beyond 2^53 is not modelled — the claims
never touch that range). -/
def digitsToNat (l : List Char) : Nat :=
  l.foldl (fun acc c => acc * 10 + (c.toNat - '0'.toNat)) 0

/-- Hex-digit test for the `[a-fA-F0-9]` class. -/
def isHexDigitJs (c : Char) : Bool :=
  c.isDigit || ('a' ≤ c && c ≤ 'f') || ('A' ≤ c && c ≤ 'F')

/-- Hex-digit value. -/
def hexVal (c : Char) : Nat :=
  if c.isDigit then c.toNat - '0'.toNat
  else if 'a' ≤ c && c ≤ 'f' then c.toNat - 'a'.toNat + 10
  else c.toNat - 'A'.toNat + 10

/-- Hex-string to `Nat` (JS `parseInt(hex, 16)` on a hex capture). -/
def hexToNat (l : List Char) : Nat :=
  l.foldl (fun acc c => acc * 16 + hexVal c) 0

/-- JS `String.fromCharCode(n)`: the code unit is `n mod 2^16`.  A lone
surrogate code unit is not a Unicode scalar value and has no Lean `Char`
counterpart; `Char.ofNat` falls back to `\0` there.  The claims under
verification only concern the no-match path, which never reaches this
function. -/
def jsFromCharCode (n : Nat) : Char := Char.ofNat (n % 65536)

/-- Embedding of `processed.replace(/&#(\d+);/g, (m, num) =>
String.fromCharCode(parseInt(num, 10)))`: scan for `&#`, a non-empty digit
run and `;`; a well-formed reference is decoded, anything else is copied
through unchanged. -/
def decNumAux : Nat → List Char → List Char
  | _, [] => []
  | 0, l => l
  | fuel + 1, '&' :: '#' :: rest =>
    let ds := rest.takeWhile Char.isDigit
    let rest2 := rest.drop ds.length
    if ds ≠ [] ∧ rest2.headD ' ' == ';' ∧ rest2 ≠ [] then
      jsFromCharCode (digitsToNat ds) :: decNumAux fuel rest2.tail
    else
      '&' :: decNumAux fuel ('#' :: rest)
  | fuel + 1, c :: cs => c :: decNumAux fuel cs

/-- Detector mirroring `decNumAux`: true iff the string contains a
well-formed `&#NN;` numeric reference. -/
def hasNumAux : Nat → List Char → Bool
  | _, [] => false
  | 0, _ => false
  | fuel + 1, '&' :: '#' :: rest =>
    let ds := rest.takeWhile Char.isDigit
    let rest2 := rest.drop ds.length
    if ds ≠ [] ∧ rest2.headD ' ' == ';' ∧ rest2 ≠ [] then true
    else hasNumAux fuel ('#' :: rest)
  | fuel + 1, _ :: cs => hasNumAux fuel cs

/-- Embedding of the hex pass `processed.replace(/&#x([a-fA-F0-9]+);/g, ...)`
(lower-case `x` only, as in the source regex). -/
def decHexAux : Nat → List Char → List Char
  | _, [] => []
  | 0, l => l
  | fuel + 1, '&' :: '#' :: 'x' :: rest =>
    let ds := rest.takeWhile isHexDigitJs
    let rest2 := rest.drop ds.length
    if ds ≠ [] ∧ rest2.headD ' ' == ';' ∧ rest2 ≠ [] then
      jsFromCharCode (hexToNat ds) :: decHexAux fuel rest2.tail
    else
      '&' :: decHexAux fuel ('#' :: 'x' :: rest)
  | fuel + 1, c :: cs => c :: decHexAux fuel cs

/-- Detector mirroring `decHexAux`. -/
def hasHexAux : Nat → List Char → Bool
  | _, [] => false
  | 0, _ => false
  | fuel + 1, '&' :: '#' :: 'x' :: rest =>
    let ds := rest.takeWhile isHexDigitJs
    let rest2 := rest.drop ds.length
    if ds ≠ [] ∧ rest2.headD ' ' == ';' ∧ rest2 ≠ [] then true
    else hasHexAux fuel ('#' :: 'x' :: rest)
  | fuel + 1, _ :: cs => hasHexAux fuel cs

/-- Numeric character-reference pass of `preprocessText`. -/
def decodeNumericEntities (s : String) : String :=
  String.mk (decNumAux s.data.length s.data)

/-- Hex character-reference pass of `preprocessText`. -/
def decodeHexEntities (s : String) : String :=
  String.mk (decHexAux s.data.length s.data)

/-- True iff `s` contains a well-formed `&#NN;` reference. -/
def hasNumRef (s : String) : Bool := hasNumAux s.data.length s.data

/-- True iff `s` contains a well-formed `&#xHH;` reference. -/
def hasHexRef (s : String) : Bool := hasHexAux s.data.length s.data

/-- Embedding of `StreamingMarkdownParser.preprocessText`: the literal
entity replaces, the numeric and hex reference passes, and the
`{italic}...{/italic}` pseudo-tag rewrite, in source order. -/
def preprocessText (text : String) : String :=
  let p := jsReplaceAll text "&#39;" "\x27"
  let p := jsReplaceAll p "&quot;" "\""
  let p := jsReplaceAll p "&amp;" "&"
  let p := jsReplaceAll p "&lt;" "<"
  let p := jsReplaceAll p "&gt;" ">"
  let p := jsReplaceAll p "&nbsp;" " "
  let p := jsReplaceAll p "&#x27;" "\x27"
  let p := jsReplaceAll p "&#x2F;" "/"
  let p := jsReplaceAll p "&#x60;" "`"
  let p := decodeNumericEntities p
  let p := decodeHexEntities p
  lazyRep "\x7bitalic\x7d" "\x7b/italic\x7d" "_" "_" p

/-- Closed token-type union of `ParsedToken.type` (`src/types`, the
`TokenType` string union).  `mathInline`/`mathBlock` stand for
`'math-inline'`/`'math-block'`. -/
inductive TokenType where
  | heading | paragraph | text | strong | em | code | codeblock
  | blockquote | list | listitem | link | image | table | hr | br
  | del | task | incomplete | mathInline | mathBlock | mermaid | diagram
deriving DecidableEq, Repr

/-- Embedding of the `ParsedToken` interface.  Optional TS fields are
`Option`s; an absent field is `none`.  JS truthiness of `incomplete` is
`incomplete = some true`. -/
structure ParsedToken where
  type : TokenType
  content : String
  depth : Option Nat
  ordered : Option Bool
  lang : Option String
  incomplete : Option Bool
  raw : Option String
deriving DecidableEq, Repr

/-- Model of a `marked` lexer token (the source declares `type Token = any`
and reads the fields dynamically, so the model is a single record carrying
every field the parser accesses; a field irrelevant to a given token type
holds its default).  `text`, `raw` and `lang` use `""` for both the empty
string and `undefined` — the source only reads them through falsy checks
(`||`, `===` against non-empty literals).  `header`/`rows` use `Option`
because `convertTableTokenToMarkdown` distinguishes a missing array from an
empty one. -/
inductive MToken where
  | mk (type : String) (text : String) (raw : String) (lang : String)
       (depth : Nat) (tokens : List MToken) (ordered : Bool)
       (items : List (String × String))
       (header : Option (List String)) (rows : Option (List (List String)))

/-- Token-type accessor. -/
def MToken.type : MToken → String
  | .mk ty _ _ _ _ _ _ _ _ _ => ty

/-- Token-text accessor. -/
def MToken.text : MToken → String
  | .mk _ tx _ _ _ _ _ _ _ _ => tx

/-- Raw-slice accessor. -/
def MToken.raw : MToken → String
  | .mk _ _ rw _ _ _ _ _ _ _ => rw

/-- Constructor for inline tokens produced by `parseInlineFromText` (plain
objects `\x7b type, raw, text \x7d`). -/
def mkInline (ty tx rw : String) : MToken :=
  MToken.mk ty tx rw "" 0 [] false [] none none

/-- JS `token.text || token.raw` (both fall through on the empty string). -/
def textOrRaw (tx rw : String) : String := if tx ≠ "" then tx else rw

/-- Recognised diagram-engine keywords of `looksLikeMermaidCode`, already
lower-cased (the source lower-cases both sides). -/
def mermaidKeywordsLower : List String :=
  ["graph", "flowchart", "sequencediagram", "classdiagram",
   "statediagram", "journey", "gantt", "pie", "gitgraph"]

/-- Embedding of `StreamingMarkdownParser.looksLikeMermaidCode`: empty code
is rejected; otherwise the trimmed, lower-cased code must start with one of
the keywords. -/
def looksLikeMermaidCode (code : String) : Bool :=
  if code = "" then false
  else
    let trimmed := jsToLower (jsTrim code)
    mermaidKeywordsLower.any (fun k => startsList k.data trimmed.data)

/-- Per-token relabelling step of `processTokensWithDiagramDetection`: a
`code` token with language tag `mermaid`, or any `code` token whose content
looks like mermaid syntax, becomes a `mermaid` token (object spread keeps
the other fields). -/
def detectDiagram : MToken → MToken
  | .mk ty tx rw lg dp toks od its hd rs =>
    if ty = "code" && lg == "mermaid" then
      .mk "mermaid" (textOrRaw tx rw) rw lg dp toks od its hd rs
    else if ty = "code" && looksLikeMermaidCode (textOrRaw tx rw) then
      .mk "mermaid" (textOrRaw tx rw) rw lg dp toks od its hd rs
    else .mk ty tx rw lg dp toks od its hd rs

/-- Cell-to-string reduction used by `convertTableTokenToMarkdown`
(`cell.text || cell.content || String(cell)`): marked cells are objects
with a `text` field and no `content` field, so an empty `text` falls
through to `String(cell)`, which stringifies the object. -/
def cellText (s : String) : String := if s ≠ "" then s else "[object Object]"

/-- One pipe-delimited line (`'| ' + cells.join(' | ') + ' |'`). -/
def mkRowLine (cells : List String) : String :=
  "| " ++ joinSep " | " cells ++ " |"

/-- Embedding of `StreamingMarkdownParser.convertTableTokenToMarkdown`:
serialises a structured table token into canonical pipe-delimited Markdown
(header line, `---` separator, one line per row).  A token without
`header`/`rows` arrays degrades to its raw text or a placeholder.  The
source wraps the body in try/catch; no embedded operation can throw, so the
catch arm is dead here. -/
def convertTableTokenToMarkdown : MToken → String
  | .mk _ _ rw _ _ _ _ _ hd rs =>
    match hd, rs with
    | some header, some rows =>
      let headerCells := header.map cellText
      let ls := [mkRowLine headerCells,
                 mkRowLine (headerCells.map (fun _ => "---"))]
      let rowLines := rows.map (fun r => mkRowLine (r.map cellText))
      joinSep "\n" (ls ++ rowLines)
    | _, _ => if rw ≠ "" then rw else "[Invalid Table]"

/-- One collected regex match of `parseInlineFromText` (`end` is a Lean
keyword, so the end offset is `stop`). -/
structure IMatch where
  mty : String
  content : List Char
  start : Nat
  stop : Nat

/-- Exec-loop scan for a symmetric inline pattern `d([^b]+)d` (for example
`\*\*([^*]+)\*\*`): at each position, the literal `d`, a non-empty maximal
run of characters other than `b`, and `d` again; matches are non-overlapping
and scanning resumes after each match, exactly as a JS `regex.exec` loop
with a `/g` flag.  A position where the pattern cannot complete advances by
one character. -/
def pairScan (mty : String) (d : List Char) (bad : Char) :
    Nat → Nat → List Char → List IMatch
  | _, _, [] => []
  | 0, _, _ => []
  | fuel + 1, i, c :: cs =>
    if startsList d (c :: cs) then
      let after := (c :: cs).drop d.length
      let run := after.takeWhile (fun x => x != bad)
      if run ≠ [] ∧ startsList d (after.drop run.length) then
        let tot := d.length + run.length + d.length
        ⟨mty, run, i, i + tot⟩ ::
          pairScan mty d bad fuel (i + tot) ((c :: cs).drop tot)
      else pairScan mty d bad fuel (i + 1) cs
    else pairScan mty d bad fuel (i + 1) cs

/-- Exec-loop scan for the link pattern `\[([^\]]+)\]\(([^)]+)\)`; the
captured content is the bracketed text (`match[1]`). -/
def linkScan : Nat → Nat → List Char → List IMatch
  | _, _, [] => []
  | 0, _, _ => []
  | fuel + 1, i, c :: cs =>
    if c == '[' then
      let r1 := cs.takeWhile (fun x => x != ']')
      if r1 ≠ [] then
        match cs.drop r1.length with
        | ']' :: '(' :: rest2 =>
          let r2 := rest2.takeWhile (fun x => x != ')')
          if r2 ≠ [] ∧ (rest2.drop r2.length).headD ' ' == ')' then
            let tot := 1 + r1.length + 2 + r2.length + 1
            ⟨"link", r1, i, i + tot⟩ ::
              linkScan fuel (i + tot) ((c :: cs).drop tot)
          else linkScan fuel (i + 1) cs
        | _ => linkScan fuel (i + 1) cs
      else linkScan fuel (i + 1) cs
    else linkScan fuel (i + 1) cs

/-- All matches of the seven inline patterns of `parseInlineFromText`, in
the source's pattern order (`**strong**`, `__strong__`, `*em*`, `_em_`,
`` `codespan` ``, `[link](url)`, `~~del~~`). -/
def collectMatches (data : List Char) : List IMatch :=
  pairScan "strong" ['*', '*'] '*' data.length 0 data ++
  pairScan "strong" ['_', '_'] '_' data.length 0 data ++
  pairScan "em" ['*'] '*' data.length 0 data ++
  pairScan "em" ['_'] '_' data.length 0 data ++
  pairScan "codespan" ['`'] '`' data.length 0 data ++
  linkScan data.length 0 data ++
  pairScan "del" ['~', '~'] '~' data.length 0 data

/-- Stable insertion (a new element goes after existing elements with an
equal or smaller start), reproducing the stable JS
`matches.sort((a, b) => a.start - b.start)`. -/
def insertByStart (m : IMatch) : List IMatch → List IMatch
  | [] => [m]
  | x :: xs => if x.start ≤ m.start then x :: insertByStart m xs else m :: x :: xs

/-- Stable sort by start offset. -/
def sortByStart (ms : List IMatch) : List IMatch :=
  ms.foldl (fun acc m => insertByStart m acc) []

/-- Token-building pass of `parseInlineFromText`: walk the sorted matches
keeping `lastEnd`; plain text between matches is emitted when its trim is
non-empty; every match is emitted (overlapping matches included, as in the
source); trailing text is emitted last. -/
def buildInline (data : List Char) : Nat → List IMatch → List MToken
  | lastEnd, [] =>
    let t := data.drop lastEnd
    if lastEnd < data.length ∧ jsTrimList t ≠ [] then
      [mkInline "text" (String.mk t) (String.mk t)]
    else []
  | lastEnd, m :: ms =>
    let pre := (data.drop lastEnd).take (m.start - lastEnd)
    let preT :=
      if m.start > lastEnd ∧ jsTrimList pre ≠ [] then
        [mkInline "text" (String.mk pre) (String.mk pre)]
      else []
    let rawS := (data.drop m.start).take (m.stop - m.start)
    preT ++ [mkInline m.mty (String.mk m.content) (String.mk rawS)] ++
      buildInline data m.stop ms

/-- Embedding of `StreamingMarkdownParser.parseInlineFromText`. -/
def parseInlineFromText (text : String) : List MToken :=
  buildInline text.data 0 (sortByStart (collectMatches text.data))

/-- Embedding of `StreamingMarkdownParser.flattenInlineTokens`: leaf inline
types are pushed as-is (before any look at their children), other tokens
with children are flattened recursively, childless ones are pushed. -/
def flattenInlineTokens : List MToken → List MToken
  | [] => []
  | MToken.mk ty tx rw lg dp toks od its hd rs :: ts =>
    (if ty = "em" ∨ ty = "strong" ∨ ty = "codespan" ∨ ty = "link" ∨
        ty = "del" ∨ ty = "text" then
      [MToken.mk ty tx rw lg dp toks od its hd rs]
    else if toks.isEmpty then [MToken.mk ty tx rw lg dp toks od its hd rs]
    else flattenInlineTokens toks) ++
    flattenInlineTokens ts

/-- Embedding of `StreamingMarkdownParser.processInlineTokens`: paragraphs
are replaced by their flattened inline children (or by a regex re-parse of
their raw text when they carry no children); blockquotes with children are
replaced by the processed children; everything else passes through. -/
def processInlineTokens : List MToken → List MToken
  | [] => []
  | MToken.mk ty tx rw lg dp toks od its hd rs :: ts =>
    (if ty = "paragraph" then
      if toks.isEmpty then
        let inl := parseInlineFromText (textOrRaw tx rw)
        if inl.isEmpty then [MToken.mk ty tx rw lg dp toks od its hd rs]
        else inl
      else flattenInlineTokens toks
    else if ty = "blockquote" then
      if toks.isEmpty then [MToken.mk ty tx rw lg dp toks od its hd rs]
      else processInlineTokens toks
    else [MToken.mk ty tx rw lg dp toks od its hd rs]) ++
    processInlineTokens ts

/-- Embedding of `StreamingMarkdownParser.processTokensWithDiagramDetection`
(the relabelling loop followed by `processInlineTokens`). -/
def processTokensWithDiagramDetection (ts : List MToken) : List MToken :=
  processInlineTokens (ts.map detectDiagram)

/-- Conversion of one non-blockquote marked token by
`StreamingMarkdownParser.convertToken` — `null` results are `[]`, array
results are the list.  Field order of `ParsedToken`:
type, content, depth, ordered, lang, incomplete, raw. -/
def convertOne : MToken → List ParsedToken
  | MToken.mk ty tx rw lg _dp _toks od its hd rs =>
    match ty with
    | "heading" => [⟨.heading, tx, some _dp, none, none, none, some rw⟩]
    | "paragraph" => [⟨.paragraph, tx, none, none, none, none, some rw⟩]
    | "strong" => [⟨.strong, tx, none, none, none, none, some rw⟩]
    | "em" => [⟨.em, tx, none, none, none, none, some rw⟩]
    | "codespan" => [⟨.code, tx, none, none, none, none, some rw⟩]
    | "link" => [⟨.link, tx, none, none, none, none, some rw⟩]
    | "del" => [⟨.del, tx, none, none, none, none, some rw⟩]
    | "text" => [⟨.text, tx, none, none, none, none, some rw⟩]
    | "code" =>
      [⟨.codeblock, tx, none, none, some (if lg ≠ "" then lg else "text"),
        none, some rw⟩]
    | "mermaid" => [⟨.mermaid, textOrRaw tx rw, none, none, none, none, some rw⟩]
    | "list" =>
      its.map (fun it => ⟨.listitem, it.1, some 0, some od, none, none, some it.2⟩)
    | "hr" => [⟨.hr, "", none, none, none, none, some rw⟩]
    | "table" =>
      [⟨.table,
        convertTableTokenToMarkdown (MToken.mk ty tx rw lg _dp _toks od its hd rs),
        none, none, none, none, some rw⟩]
    | "space" => []
    | _ => [⟨.text, textOrRaw tx rw, none, none, none, none, some rw⟩]

/-- Embedding of the `StreamingMarkdownParser.convertTokens` loop over
`convertToken`: a `blockquote` token is replaced by the flattened
conversion of its children
(`blockquote.tokens.map(convertToken).flat().filter(Boolean)`), every other
token converts through `convertOne`. -/
def convertList : List MToken → List ParsedToken
  | [] => []
  | MToken.mk ty tx rw lg dp toks od its hd rs :: ts =>
    (if ty = "blockquote" then convertList toks
     else convertOne (MToken.mk ty tx rw lg dp toks od its hd rs)) ++
    convertList ts

/-- Embedding of `StreamingMarkdownParser.convertToken` (single token;
`null` is `[]`, an array result is the list). -/
def convertToken (t : MToken) : List ParsedToken := convertList [t]

/-- Embedding of `StreamingMarkdownParser.convertTokens`. -/
def convertTokens (ts : List MToken) : List ParsedToken := convertList ts

/-- Length of the maximal run of trailing characters not in `bad`. -/
def tailRunLen (bad : List Char) (l : List Char) : Nat :=
  (l.reverse.takeWhile (fun c => !(bad.contains c))).length

/-- Test of `/\*\*[^*\n]{1,100}$/`: a trailing run of 1–100 characters
other than `*` and newline, immediately preceded by `**`. -/
def patStrongTail (s : String) : Bool :=
  let rl := s.data.reverse
  let r := (rl.takeWhile (fun c => !(['*', '\n'].contains c))).length
  decide (1 ≤ r ∧ r ≤ 100) && rl.get? r == some '*' && rl.get? (r + 1) == some '*'

/-- Test of `/\*[^*\n]{1,100}$/`. -/
def patEmTail (s : String) : Bool :=
  let rl := s.data.reverse
  let r := (rl.takeWhile (fun c => !(['*', '\n'].contains c))).length
  decide (1 ≤ r ∧ r ≤ 100) && rl.get? r == some '*'

/-- Test of `` /`[^`\n]{1,500}$/ ``. -/
def patCodeTail (s : String) : Bool :=
  let rl := s.data.reverse
  let r := (rl.takeWhile (fun c => !(['`', '\n'].contains c))).length
  decide (1 ≤ r ∧ r ≤ 500) && rl.get? r == some '`'

/-- Test of `/\[[^\]\n]{1,200}$/`: `[` is itself allowed inside the run, so
the opening bracket may sit anywhere within reach of the 200-character
bound, not only just before the maximal run. -/
def patLinkTail (s : String) : Bool :=
  let rl := s.data.reverse
  let r := (rl.takeWhile (fun c => !([']', '\n'].contains c))).length
  (List.range (min r 200)).any (fun j => rl.get? (j + 1) == some '[')

/-- Test of `/^#{1,6}\s[^\n]{1,200}$/` (anchored at both ends, no
multiline flag): the whole buffer is 1–6 hashes, one `\s` character, then
1–200 non-newline characters. -/
def patHeadingLine (s : String) : Bool :=
  let l := s.data
  let k := (l.takeWhile (fun c => c == '#')).length
  let rest := l.drop (k + 1)
  decide (1 ≤ k ∧ k ≤ 6) &&
  (match l.get? k with | some c => isJsWs c | none => false) &&
  decide (1 ≤ rest.length ∧ rest.length ≤ 200) && !(rest.contains '\n')

/-- Disjunction of the five still-open signatures of
`handleIncompleteMarkdown`, in source order. -/
def tailMatchesAny (buffer : String) : Bool :=
  patStrongTail buffer || patEmTail buffer || patCodeTail buffer ||
  patLinkTail buffer || patHeadingLine buffer

/-- Embedding of `StreamingMarkdownParser.handleIncompleteMarkdown`: with a
non-empty token list, when any signature matches the buffer and the last
token's `content` is truthy (non-empty), the last token's `incomplete` flag
is set; otherwise the list is unchanged.  (The source iterates the
patterns, assigning `lastToken.incomplete = true` under the same combined
condition; repeated assignment is idempotent.) -/
def handleIncompleteMarkdown (buffer : String) (tokens : List ParsedToken) :
    List ParsedToken :=
  match tokens.getLast? with
  | none => tokens
  | some lt =>
    if tailMatchesAny buffer && lt.content != "" then
      tokens.dropLast ++
        [⟨lt.type, lt.content, lt.depth, lt.ordered, lt.lang, some true, lt.raw⟩]
    else tokens

/-- Test of `/^#{1,6}\s/` for `parseIncompleteLine`. -/
def headingTest (line : String) : Bool :=
  let l := line.data
  let k := (l.takeWhile (fun c => c == '#')).length
  decide (1 ≤ k ∧ k ≤ 6) &&
  (match l.get? k with | some c => isJsWs c | none => false)

/-- Leading hash count (`line.match(/^(#{1,6})/)?.[1].length`; within the
heading branch the run length is at most 6, so the greedy capture is the
full run). -/
def leadingHashCount (line : String) : Nat :=
  (line.data.takeWhile (fun c => c == '#')).length

/-- List-marker test `/^[-*+]\s/`. -/
def bulletTest (line : String) : Bool :=
  match line.data with
  | c :: d :: _ => ['-', '*', '+'].contains c && isJsWs d
  | _ => false

/-- Ordered-marker test `/^\d+\.\s/`. -/
def orderedTest (line : String) : Bool :=
  let l := line.data
  let k := (l.takeWhile Char.isDigit).length
  decide (1 ≤ k) && (l.get? k == some '.') &&
  (match l.get? (k + 1) with | some c => isJsWs c | none => false)

/-- Test of `/^\d+\./` (the `ordered` flag inside the list branch). -/
def orderedFlagTest (line : String) : Bool :=
  let l := line.data
  let k := (l.takeWhile Char.isDigit).length
  decide (1 ≤ k) && (l.get? k == some '.')

/-- Incomplete-pattern test of `parseInlineFormatting` (`/\*\*[^*\n]{1,100}$/
|| /\*[^*\n]{1,100}$/ || /`[^`\n]{1,500}$/`). -/
def inlineIncompleteTest (text : String) : Bool :=
  patStrongTail text || patEmTail text || patCodeTail text

/-- Embedding of `StreamingMarkdownParser.parseInlineFormatting`: a `text`
token whose `incomplete` flag comes from the unterminated bold/em/code tail
patterns. -/
def parseInlineFormatting (text : String) : ParsedToken :=
  ⟨.text, text, none, none, none, some (inlineIncompleteTest text), none⟩

/-- Embedding of `StreamingMarkdownParser.parseIncompleteLine`: prefix
classification of one line (heading, fence, blockquote, list item, else
inline text).  `incomplete` uses `!line.includes('\n')` where the source
does. -/
def parseIncompleteLine (line : String) : ParsedToken :=
  if headingTest line then
    let k := leadingHashCount line
    ⟨.heading, String.mk (line.data.drop (k + 1)), some k, none, none,
      some (!(line.data.contains '\n')), none⟩
  else if startsList "```".data line.data then
    let lang := jsTrim (String.mk (line.data.drop 3))
    ⟨.codeblock, "", none, none, some (if lang ≠ "" then lang else "text"),
      some true, none⟩
  else if startsList ">".data line.data then
    ⟨.blockquote, String.mk ((line.data.drop 1).dropWhile isJsWs), none,
      none, none, some (!(line.data.contains '\n')), none⟩
  else if bulletTest line || orderedTest line then
    ⟨.listitem, String.mk ((line.data.drop 1).dropWhile isJsWs), none,
      some (orderedFlagTest line), none,
      some (!(line.data.contains '\n')), none⟩
  else parseInlineFormatting line

/-- Embedding of `StreamingMarkdownParser.parsePartial`: split the buffer
on newlines, drop blank lines, classify each remaining line
independently. -/
def parsePartialTokens (buffer : String) : List ParsedToken :=
  ((jsSplitOnChar '\n' buffer).filter (fun l => jsTrim l != "")).map
    parseIncompleteLine

/-- Parser session state (`StreamingMarkdownParser`'s private fields
`buffer`, `tokens`, `parseIncomplete`). -/
structure ParserState where
  buffer : String
  tokens : List ParsedToken
  parseIncomplete : Bool
deriving DecidableEq, Repr

/-- Fresh parser (constructor default `parseIncomplete = true`). -/
def initParser : ParserState := ⟨"", [], true⟩

/-- The `StreamingMarkdownParser.getTokens` accessor. -/
def getTokens (st : ParserState) : List ParsedToken := st.tokens

/-- Body of `parse()`'s `try` branch after a successful `marked.lexer`
call: diagram detection and inline processing, conversion, then (when
enabled) the incomplete-markdown pass. -/
def tokensFromLexed (parseIncomplete : Bool) (buffer : String)
    (mts : List MToken) : List ParsedToken :=
  let converted := convertTokens (processTokensWithDiagramDetection mts)
  if parseIncomplete then handleIncompleteMarkdown buffer converted
  else converted

/-- Abstract grammar: `marked.lexer` may produce a token list or throw. -/
def Lexer : Type := String → Except Unit (List MToken)

/-- Embedding of `StreamingMarkdownParser.addChunk` with the
exception-monad result made explicit: every operation that could throw is
inside, and the `try/catch` of `parse()` is the match on the lexer result —
the catch arm degrades to `parsePartial` and leaves the stored token list
untouched, while the success arm stores the new tokens.  `addChunk` "never
throws" iff this computation is always `Except.ok`. -/
def addChunkE (lexer : Lexer) (st : ParserState) (chunk : String) :
    Except Unit (ParserState × List ParsedToken) :=
  let buf := st.buffer ++ preprocessText chunk
  match lexer buf with
  | .ok mts =>
    let ts := tokensFromLexed st.parseIncomplete buf mts
    .ok (⟨buf, ts, st.parseIncomplete⟩, ts)
  | .error _ =>
    .ok (⟨buf, st.tokens, st.parseIncomplete⟩, parsePartialTokens buf)

/-- Runs a whole chunk sequence through `addChunkE` from a given state,
collecting each call's returned token array. -/
def runChunksFrom (lexer : Lexer) (st : ParserState) :
    List String → Except Unit (ParserState × List (List ParsedToken))
  | [] => .ok (st, [])
  | c :: cs =>
    match addChunkE lexer st c with
    | .ok (st', ts) =>
      match runChunksFrom lexer st' cs with
      | .ok (stf, rest) => .ok (stf, ts :: rest)
      | .error e => .error e
    | .error e => .error e

/-- Runs a chunk sequence on a fresh parser. -/
def runChunks (lexer : Lexer) (chunks : List String) :
    Except Unit (ParserState × List (List ParsedToken)) :=
  runChunksFrom lexer initParser chunks

/-- Result record of `EnhancedTableRenderer.parseMarkdownTable`. -/
structure TableData where
  headers : List String
  rows : List (List String)
deriving DecidableEq, Repr

/-- Markdown-formatting cleanup applied to header cells
(`replace(/\*\*(.*?)\*\*/g,'$1').replace(/\*(.*?)\*/g,'$1')
.replace(/`(.*?)`/g,'$1').trim()`). -/
def cleanHeaderCell (s : String) : String :=
  jsTrim (lazyRep "`" "`" "" "" (lazyRep "*" "*" "" "" (lazyRep "**" "**" "" "" s)))

/-- Markdown-formatting cleanup applied to row cells (header cleanup plus
strikethrough removal). -/
def cleanRowCell (s : String) : String :=
  jsTrim (lazyRep "~~" "~~" "" ""
    (lazyRep "`" "`" "" "" (lazyRep "*" "*" "" "" (lazyRep "**" "**" "" "" s))))

/-- Drops one leading and (then) one trailing empty cell, as
`parseMarkdownTable` does for the `| a | b |` pipe style. -/
def dropEdgesEmpty (l : List String) : List String :=
  let l1 := match l with
    | x :: xs => if x == "" then xs else x :: xs
    | [] => []
  match l1.getLast? with
  | some x => if x == "" then l1.dropLast else l1
  | none => l1

/-- Non-blank lines of the table string
(`markdown.trim().split('\n').filter(line => line.trim())`). -/
def tableLines (markdown : String) : List String :=
  (jsSplitOnChar '\n' (jsTrim markdown)).filter (fun l => jsTrim l != "")

/-- Header cells parsed from the first line: split on `|`, trim, drop the
empty edge cells, strip markdown formatting. -/
def headersOf (markdown : String) : List String :=
  (dropEdgesEmpty ((jsSplitOnChar '|' ((tableLines markdown).headD "")).map
    jsTrim)).map cleanHeaderCell

/-- Data lines (`lines.slice(2)` — everything after header and
separator). -/
def dataLinesOf (markdown : String) : List String :=
  (tableLines markdown).drop 2

/-- Cleaned cells of one data line (split on `|`, trim, drop empty edges,
strip markdown formatting). -/
def cleanedRowCells (line : String) : List String :=
  (dropEdgesEmpty ((jsSplitOnChar '|' line).map jsTrim)).map cleanRowCell

/-- The row-collection loop of `parseMarkdownTable`: a data line's cells
are appended only when their count equals the header count. -/
def parseRowsLoop (headerCount : Nat) (acc : List (List String)) :
    List String → List (List String)
  | [] => acc
  | line :: rest =>
    let cells := cleanedRowCells line
    parseRowsLoop headerCount
      (if cells.length == headerCount then acc ++ [cells] else acc) rest

/-- Embedding of `EnhancedTableRenderer.parseMarkdownTable`: needs at least
three non-blank lines, a non-empty header, and at least one reconcilable
data row; otherwise `none` (the source's `null`). -/
def parseMarkdownTable (markdown : String) : Option TableData :=
  if (tableLines markdown).length < 3 then none
  else if (headersOf markdown).length == 0 then none
  else
    let rows := parseRowsLoop (headersOf markdown).length [] (dataLinesOf markdown)
    if rows.length == 0 then none
    else some ⟨headersOf markdown, rows⟩

/-- Well-formedness of a table cell for the round-trip statement: after
the `cell.text || String(cell)` reduction the cell text contains neither a
pipe nor a newline (escaped pipes inside cells are out of scope of a
canonical table). -/
def cellOkB (c : String) : Bool :=
  decide ('|' ∉ (cellText c).data) && decide ('\n' ∉ (cellText c).data)

theorem addChunkE_isOk (lexer : Lexer) (st : ParserState) (chunk : String) :
    (addChunkE lexer st chunk).isOk = true := by
  simp only [addChunkE]
  cases lexer (st.buffer ++ preprocessText chunk) <;> rfl

/-- Claim C1: for every sequence of string chunks, every `addChunk` call
returns a token array and never raises — the computation is `Except.ok` for
every (possibly failing) grammar, and a grammar failure is absorbed by
falling back to the line-oriented partial parser, which is a total
function. -/
theorem c1_addChunk_never_throws :
    ∀ (lexer : Lexer) (chunks : List String),
      (runChunks lexer chunks).isOk = true ∧
      ∀ (st : ParserState) (chunk : String) (e : Unit),
        lexer (st.buffer ++ preprocessText chunk) = .error e →
        addChunkE lexer st chunk =
          .ok (⟨st.buffer ++ preprocessText chunk, st.tokens, st.parseIncomplete⟩,
               parsePartialTokens (st.buffer ++ preprocessText chunk)) := by
  intro lexer chunks
  constructor
  · have h : ∀ (cs : List String) (st : ParserState),
        (runChunksFrom lexer st cs).isOk = true := by
      intro cs
      induction cs with
      | nil => intro st; rfl
      | cons c cs ih =>
        intro st
        rcases hok : addChunkE lexer st c with e | ⟨st', ts⟩
        · have := addChunkE_isOk lexer st c
          rw [hok] at this
          exact absurd this (by simp [Except.isOk, Except.toBool])
        · rcases hrun : runChunksFrom lexer st' cs with e | ⟨stf, rest⟩
          · have := ih st'
            rw [hrun] at this
            exact absurd this (by simp [Except.isOk, Except.toBool])
          · simp only [runChunksFrom, hok, hrun]
            rfl
    exact h chunks initParser
  · intro st chunk e he
    simp only [addChunkE, he]

/-- Witness for C1 at a concrete failing grammar and chunk sequence. -/
theorem c1_witness :
    (runChunks (fun _ => Except.error ()) ["**a"]).isOk = true ∧
    addChunkE (fun _ => Except.error ()) initParser "**a" =
      .ok (⟨"**a", [], true⟩, parsePartialTokens "**a") :=
  ⟨(c1_addChunk_never_throws (fun _ => Except.error ()) ["**a"]).1,
   (c1_addChunk_never_throws (fun _ => Except.error ()) ["**a"]).2
     initParser "**a" () rfl⟩

/-- Claim C9: on a successful primary parse the session stores exactly the
returned array, on the fallback path the stored token list is unchanged and
the call returns the partial-parser output instead, and the two can
differ. -/
theorem c9_frame_effect :
    ∀ (lexer : Lexer) (st : ParserState) (chunk : String),
      (∀ mts, lexer (st.buffer ++ preprocessText chunk) = .ok mts →
        ∃ st' ts, addChunkE lexer st chunk = .ok (st', ts) ∧
          getTokens st' = ts) ∧
      (∀ e, lexer (st.buffer ++ preprocessText chunk) = .error e →
        ∃ st' ts, addChunkE lexer st chunk = .ok (st', ts) ∧
          getTokens st' = st.tokens ∧
          ts = parsePartialTokens (st.buffer ++ preprocessText chunk)) ∧
      (∃ (lx : Lexer) (st0 : ParserState) (c : String) (st' : ParserState)
          (ts : List ParsedToken),
        addChunkE lx st0 c = .ok (st', ts) ∧ getTokens st' ≠ ts) := by
  intro lexer st chunk
  refine ⟨?_, ?_, ?_⟩
  · intro mts hok
    refine ⟨⟨st.buffer ++ preprocessText chunk,
      tokensFromLexed st.parseIncomplete (st.buffer ++ preprocessText chunk) mts,
      st.parseIncomplete⟩,
      tokensFromLexed st.parseIncomplete (st.buffer ++ preprocessText chunk) mts,
      ?_, rfl⟩
    simp only [addChunkE, hok]
  · intro e herr
    refine ⟨⟨st.buffer ++ preprocessText chunk, st.tokens, st.parseIncomplete⟩,
      parsePartialTokens (st.buffer ++ preprocessText chunk), ?_, rfl, rfl⟩
    simp only [addChunkE, herr]
  · refine ⟨fun _ => Except.error (), initParser, "hello",
      ⟨"hello", [], true⟩,
      [⟨.text, "hello", none, none, none, some false, none⟩], rfl, ?_⟩
    decide

/-- Witness for C9 at a concrete succeeding grammar. -/
theorem c9_witness :
    ∃ st' ts,
      addChunkE (fun _ => Except.ok []) initParser "x" = .ok (st', ts) ∧
      getTokens st' = ts :=
  (c9_frame_effect (fun _ => Except.ok []) initParser "x").1 [] rfl

/-- Claim C3 (code evaluation at the failing input): a fenced code block
with language tag `python` whose content starts with `graph TD` is
relabelled and converted to a `mermaid` (diagram) token — the
auto-detection branch of `processTokensWithDiagramDetection` runs on every
code block regardless of its language tag, although the claim (and the
source's own comment) restrict auto-detection to unlabeled blocks. -/
theorem c3_code_evaluation :
    (convertTokens (processTokensWithDiagramDetection
      [MToken.mk "code" "graph TD\nA-->B" "```python\ngraph TD\nA-->B\n```"
        "python" 0 [] false [] none none])).map ParsedToken.type =
      [TokenType.mermaid] ∧
    looksLikeMermaidCode "graph TD\nA-->B" = true := by
  have hm : looksLikeMermaidCode "graph TD\nA-->B" = true := by decide
  constructor
  · simp [convertTokens, convertList, processTokensWithDiagramDetection,
      processInlineTokens, detectDiagram, textOrRaw, convertOne, hm]
  · exact hm

theorem hasNumAux_cons (fuel : Nat) (c : Char) (cs : List Char)
    (hc : ∀ rest, c = '&' → cs = '#' :: rest → False) :
    hasNumAux (fuel + 1) (c :: cs) = hasNumAux fuel cs := by
  rw [hasNumAux.eq_def]
  split
  · rename_i heq; cases heq
  · rename_i heq _; cases heq
  · rename_i fuel' rest' hf heq
    injection heq with e1 e2
    exact (hc rest' e1 e2).elim
  · rename_i fuel' c' cs' hcon hf heq
    have hfu : fuel = fuel' := Nat.succ.inj hf
    injection heq with e1 e2
    subst hfu e1 e2
    rfl

theorem decNumAux_cons (fuel : Nat) (c : Char) (cs : List Char)
    (hc : ∀ rest, c = '&' → cs = '#' :: rest → False) :
    decNumAux (fuel + 1) (c :: cs) = c :: decNumAux fuel cs := by
  rw [decNumAux.eq_def]
  split
  · rename_i heq; cases heq
  · rename_i heq _; cases heq
  · rename_i fuel' rest' hf heq
    injection heq with e1 e2
    exact (hc rest' e1 e2).elim
  · rename_i fuel' c' cs' hcon hf heq
    have hfu : fuel = fuel' := Nat.succ.inj hf
    injection heq with e1 e2
    subst hfu e1 e2
    rfl

theorem hasHexAux_cons (fuel : Nat) (c : Char) (cs : List Char)
    (hc : ∀ rest, c = '&' → cs = '#' :: 'x' :: rest → False) :
    hasHexAux (fuel + 1) (c :: cs) = hasHexAux fuel cs := by
  rw [hasHexAux.eq_def]
  split
  · rename_i heq; cases heq
  · rename_i heq _; cases heq
  · rename_i fuel' rest' hf heq
    injection heq with e1 e2
    exact (hc rest' e1 e2).elim
  · rename_i fuel' c' cs' hcon hf heq
    have hfu : fuel = fuel' := Nat.succ.inj hf
    injection heq with e1 e2
    subst hfu e1 e2
    rfl

theorem decHexAux_cons (fuel : Nat) (c : Char) (cs : List Char)
    (hc : ∀ rest, c = '&' → cs = '#' :: 'x' :: rest → False) :
    decHexAux (fuel + 1) (c :: cs) = c :: decHexAux fuel cs := by
  rw [decHexAux.eq_def]
  split
  · rename_i heq; cases heq
  · rename_i heq _; cases heq
  · rename_i fuel' rest' hf heq
    injection heq with e1 e2
    exact (hc rest' e1 e2).elim
  · rename_i fuel' c' cs' hcon hf heq
    have hfu : fuel = fuel' := Nat.succ.inj hf
    injection heq with e1 e2
    subst hfu e1 e2
    rfl

theorem decNumAux_id :
    ∀ (fuel : Nat) (l : List Char),
      hasNumAux fuel l = false → decNumAux fuel l = l := by
  intro fuel l
  induction fuel, l using decNumAux.induct with
  | case1 fuel => intro _; cases fuel <;> rfl
  | case2 l hne => intro _; cases l with | nil => rfl | cons c cs => rfl
  | case3 fuel rest ds rest2 hcond ih =>
    intro h
    simp only [hasNumAux] at h
    split at h
    · exact absurd h (by simp)
    · rename_i hnc; exact (hnc hcond).elim
  | case4 fuel rest ds rest2 hcond ih =>
    intro h
    simp only [hasNumAux] at h
    split at h
    · rename_i hc'; exact (hcond hc').elim
    · simp only [decNumAux]
      split
      · rename_i hc'; exact (hcond hc').elim
      · rw [ih h]
  | case5 fuel c cs hcc ih =>
    intro h
    rw [hasNumAux_cons fuel c cs hcc] at h
    rw [decNumAux_cons fuel c cs hcc, ih h]

theorem decHexAux_id :
    ∀ (fuel : Nat) (l : List Char),
      hasHexAux fuel l = false → decHexAux fuel l = l := by
  intro fuel l
  induction fuel, l using decHexAux.induct with
  | case1 fuel => intro _; cases fuel <;> rfl
  | case2 l hne => intro _; cases l with | nil => rfl | cons c cs => rfl
  | case3 fuel rest ds rest2 hcond ih =>
    intro h
    simp only [hasHexAux] at h
    split at h
    · exact absurd h (by simp)
    · rename_i hnc; exact (hnc hcond).elim
  | case4 fuel rest ds rest2 hcond ih =>
    intro h
    simp only [hasHexAux] at h
    split at h
    · rename_i hc'; exact (hcond hc').elim
    · simp only [decHexAux]
      split
      · rename_i hc'; exact (hcond hc').elim
      · rw [ih h]
  | case5 fuel c cs hcc ih =>
    intro h
    rw [hasHexAux_cons fuel c cs hcc] at h
    rw [decHexAux_cons fuel c cs hcc, ih h]

/-- Claim C8: the character-reference passes decode well-formed numeric and
hex references best-effort, and a string none of whose `&#...` sequences
forms a well-formed reference (the parse-failure situation) passes through
both passes completely unmodified — no replacement character is
substituted. -/
theorem c8_entity_fallback :
    ∀ s : String,
      (hasNumRef s = false → decodeNumericEntities s = s) ∧
      (hasHexRef s = false → decodeHexEntities s = s) := by
  intro s
  constructor
  · intro h
    simp only [decodeNumericEntities, decNumAux_id s.data.length s.data h]
  · intro h
    simp only [decodeHexEntities, decHexAux_id s.data.length s.data h]

/-- Witness for C8 on a malformed-reference string: `&#xG;` (bad hex
digit), `&#;` (no digits) and a trailing `&#12` (no semicolon) are all left
untouched by both passes. -/
theorem c8_witness :
    decodeNumericEntities "&#xG;&#;a&#12" = "&#xG;&#;a&#12" ∧
    decodeHexEntities "&#xG;&#;a&#12" = "&#xG;&#;a&#12" :=
  ⟨(c8_entity_fallback "&#xG;&#;a&#12").1 (by decide),
   (c8_entity_fallback "&#xG;&#;a&#12").2 (by decide)⟩

set_option maxHeartbeats 1000000 in
theorem convertOne_props (t : MToken) :
    ∀ p ∈ convertOne t, p.incomplete = none ∧ p.type ≠ TokenType.blockquote := by
  rcases t with ⟨ty, tx, rw, lg, dp, toks, od, its, hd, rs⟩
  intro p hp
  simp only [convertOne] at hp
  split at hp <;>
    first
    | (simp only [List.mem_singleton] at hp; subst hp; exact ⟨rfl, by simp⟩)
    | (simp only [List.mem_map] at hp; obtain ⟨it, _, rfl⟩ := hp;
       exact ⟨rfl, by simp⟩)
    | simp at hp

theorem convertList_props :
    ∀ l, ∀ p ∈ convertList l,
      p.incomplete = none ∧ p.type ≠ TokenType.blockquote := by
  intro l
  induction l using convertList.induct with
  | case1 => intro p hp; simp [convertList] at hp
  | case2 ty tx rw lg dp toks od its hd rs ts ih1 ih2 =>
    intro p hp
    simp only [convertList] at hp
    rw [List.mem_append] at hp
    rcases hp with hp | hp
    · split at hp
      · exact ih1 p hp
      · exact convertOne_props _ p hp
    · exact ih2 p hp

theorem handleIncomplete_map_tc (buffer : String) (ts : List ParsedToken) :
    (handleIncompleteMarkdown buffer ts).map (fun t => (t.type, t.content)) =
      ts.map (fun t => (t.type, t.content)) := by
  induction ts using List.reverseRecOn with
  | nil => rfl
  | append_singleton xs x ih =>
    simp only [handleIncompleteMarkdown, List.getLast?_concat]
    split
    · rw [List.dropLast_concat]
      simp
    · rfl

theorem provisional_shape (buffer : String) (conv : List ParsedToken)
    (hnone : ∀ p ∈ conv, p.incomplete = none) :
    ((handleIncompleteMarkdown buffer conv).filter
        (fun t => t.incomplete == some true)).length ≤ 1 ∧
    (handleIncompleteMarkdown buffer conv).dropLast.all
        (fun t => t.incomplete != some true) = true := by
  have hfilter : conv.filter (fun t => t.incomplete == some true) = [] := by
    rw [List.filter_eq_nil_iff]
    intro a ha
    simp [hnone a ha]
  rcases List.eq_nil_or_concat conv with hnil | ⟨xs, x, hcc⟩
  · subst hnil
    exact ⟨by simp [handleIncompleteMarkdown], by simp [handleIncompleteMarkdown]⟩
  · rw [List.concat_eq_append] at hcc
    subst hcc
    have hxs : ∀ p ∈ xs, p.incomplete = none :=
      fun p hp => hnone p (by simp [hp])
    have hxsf : xs.filter (fun t => t.incomplete == some true) = [] := by
      rw [List.filter_eq_nil_iff]
      intro a ha
      simp [hxs a ha]
    simp only [handleIncompleteMarkdown, List.getLast?_concat]
    split
    · rw [List.dropLast_concat]
      constructor
      · rw [List.filter_append, hxsf]
        simp
      · rw [List.dropLast_concat, List.all_eq_true]
        intro t ht
        simp [hxs t ht]
    · constructor
      · rw [hfilter]
        simp
      · rw [List.all_eq_true]
        intro t ht
        simp [hnone t (List.mem_of_mem_dropLast ht)]

theorem tokensFromLexed_eq (lexer : Lexer) (st : ParserState) (chunk : String)
    (mts : List MToken) (st' : ParserState) (ts : List ParsedToken)
    (hok : lexer (st.buffer ++ preprocessText chunk) = .ok mts)
    (hadd : addChunkE lexer st chunk = .ok (st', ts)) :
    ts = tokensFromLexed st.parseIncomplete
      (st.buffer ++ preprocessText chunk) mts := by
  simp only [addChunkE, hok, Except.ok.injEq, Prod.mk.injEq] at hadd
  exact hadd.2.symm

/-- Claim C10: on every successful primary parse no token of type
`blockquote` appears in the returned array — blockquote nodes are always
replaced by the flattened conversion of their children; only the fallback
line parser (`parseIncompleteLine` on a `>` line) emits one. -/
theorem c10_no_blockquote :
    ∀ (lexer : Lexer) (st : ParserState) (chunk : String) (mts : List MToken)
      (st' : ParserState) (ts : List ParsedToken),
      lexer (st.buffer ++ preprocessText chunk) = .ok mts →
      addChunkE lexer st chunk = .ok (st', ts) →
      ts.all (fun t => t.type != TokenType.blockquote) = true := by
  intro lexer st chunk mts st' ts hok hadd
  have hts := tokensFromLexed_eq lexer st chunk mts st' ts hok hadd
  subst hts
  simp only [tokensFromLexed]
  have hconv : ∀ p ∈ convertTokens (processTokensWithDiagramDetection mts),
      p.type ≠ TokenType.blockquote :=
    fun p hp => (convertList_props _ p hp).2
  set conv := convertTokens (processTokensWithDiagramDetection mts) with hc
  have key : ∀ (l : List ParsedToken), (∀ p ∈ l, p.type ≠ TokenType.blockquote) →
      l.all (fun t => t.type != TokenType.blockquote) = true := by
    intro l hl
    rw [List.all_eq_true]
    intro t ht
    simp [hl t ht]
  split
  · -- incompleteness pass preserves (type, content)
    have hmap := handleIncomplete_map_tc (st.buffer ++ preprocessText chunk) conv
    apply key
    intro p hp
    have : (p.type, p.content) ∈ conv.map (fun t => (t.type, t.content)) := by
      rw [← hmap]
      exact List.mem_map_of_mem _ hp
    rw [List.mem_map] at this
    obtain ⟨q, hq, hqe⟩ := this
    have := hconv q hq
    intro hcontra
    apply this
    have : q.type = p.type := congrArg Prod.fst hqe
    rw [this, hcontra]
  · exact key conv hconv

/-- Witness for C10 on a concrete blockquote input. -/
theorem c10_witness :
    ∃ st' ts,
      addChunkE
        (fun _ => Except.ok
          [MToken.mk "blockquote" "" "> hi" "" 0
            [MToken.mk "paragraph" "hi" "hi" "" 0
              [mkInline "text" "hi" "hi"] false [] none none] false [] none none])
        initParser "> hi" = .ok (st', ts) ∧
      ts.all (fun t => t.type != TokenType.blockquote) = true := by
  rcases hadd : addChunkE
      (fun _ => Except.ok
        [MToken.mk "blockquote" "" "> hi" "" 0
          [MToken.mk "paragraph" "hi" "hi" "" 0
            [mkInline "text" "hi" "hi"] false [] none none] false [] none none])
      initParser "> hi" with e | ⟨st', ts⟩
  · have := addChunkE_isOk
      (fun _ => Except.ok
        [MToken.mk "blockquote" "" "> hi" "" 0
          [MToken.mk "paragraph" "hi" "hi" "" 0
            [mkInline "text" "hi" "hi"] false [] none none] false [] none none])
      initParser "> hi"
    rw [hadd] at this
    exact absurd this (by simp [Except.isOk, Except.toBool])
  · exact ⟨st', ts, rfl, c10_no_blockquote _ initParser "> hi" _ st' ts rfl hadd⟩

/-- Claim C2 as amended: on the primary full-buffer tokenization path the
returned token array contains at most one provisional token, and every
token other than the last is non-provisional.  (On the fallback line-parser
path the original claim fails; see the counterexample.) -/
theorem c2_amended_primary_provisional :
    ∀ (lexer : Lexer) (st : ParserState) (chunk : String) (mts : List MToken)
      (st' : ParserState) (ts : List ParsedToken),
      lexer (st.buffer ++ preprocessText chunk) = .ok mts →
      addChunkE lexer st chunk = .ok (st', ts) →
      (ts.filter (fun t => t.incomplete == some true)).length ≤ 1 ∧
      ts.dropLast.all (fun t => t.incomplete != some true) = true := by
  intro lexer st chunk mts st' ts hok hadd
  have hts := tokensFromLexed_eq lexer st chunk mts st' ts hok hadd
  subst hts
  simp only [tokensFromLexed]
  have hnone : ∀ p ∈ convertTokens (processTokensWithDiagramDetection mts),
      p.incomplete = none :=
    fun p hp => (convertList_props _ p hp).1
  split
  · exact provisional_shape _ _ hnone
  · constructor
    · have : (convertTokens (processTokensWithDiagramDetection mts)).filter
          (fun t => t.incomplete == some true) = [] := by
        rw [List.filter_eq_nil_iff]
        intro a ha
        simp [hnone a ha]
      rw [this]
      simp
    · rw [List.all_eq_true]
      intro t ht
      simp [hnone t (List.mem_of_mem_dropLast ht)]

/-- Witness for the amended C2 at a concrete successful parse. -/
theorem c2_witness :
    ∃ st' ts,
      addChunkE (fun _ => Except.ok
        [MToken.mk "heading" "Hi" "# Hi" "" 1 [] false [] none none])
        initParser "# Hi" = .ok (st', ts) ∧
      (ts.filter (fun t => t.incomplete == some true)).length ≤ 1 ∧
      ts.dropLast.all (fun t => t.incomplete != some true) = true := by
  rcases hadd : addChunkE (fun _ => Except.ok
      [MToken.mk "heading" "Hi" "# Hi" "" 1 [] false [] none none])
      initParser "# Hi" with e | ⟨st', ts⟩
  · have := addChunkE_isOk (fun _ => Except.ok
      [MToken.mk "heading" "Hi" "# Hi" "" 1 [] false [] none none])
      initParser "# Hi"
    rw [hadd] at this
    exact absurd this (by simp [Except.isOk, Except.toBool])
  · exact ⟨st', ts, rfl,
      c2_amended_primary_provisional _ initParser "# Hi" _ st' ts rfl hadd⟩

/-- Counterexample to C2 as stated: on the fallback line-parser path a
single `addChunk` call can return two provisional tokens (each line is
scanned independently), so "zero or one provisional tokens, and if present
last" fails there. -/
theorem c2_counterexample :
    ∃ ts,
      addChunkE (fun _ => Except.error ()) initParser "`a\n`b" =
        Except.ok (⟨"`a\n`b", [], true⟩, ts) ∧
      (ts.filter (fun t => t.incomplete == some true)).length = 2 := by
  refine ⟨parsePartialTokens "`a\n`b", rfl, ?_⟩
  decide

theorem handleIncomplete_concat (buffer : String) (xs : List ParsedToken)
    (x : ParsedToken) :
    handleIncompleteMarkdown buffer (xs ++ [x]) =
      if tailMatchesAny buffer && x.content != "" then
        xs ++ [⟨x.type, x.content, x.depth, x.ordered, x.lang, some true, x.raw⟩]
      else xs ++ [x] := by
  simp only [handleIncompleteMarkdown, List.getLast?_concat,
    List.dropLast_concat]

/-- Claim C4 as amended: with incompleteness handling enabled, when the
primary tokenization succeeds, the returned list is non-empty, the buffer
tail matches one of the still-open signatures, and the last token's content
is non-empty, the last token is flagged provisional.  (The content
condition is forced by the source's `if (lastToken.content)` guard; see the
counterexample for the original claim.) -/
theorem c4_amended_tail_provisional :
    ∀ (lexer : Lexer) (st : ParserState) (chunk : String) (mts : List MToken)
      (st' : ParserState) (ts : List ParsedToken) (lt : ParsedToken),
      lexer (st.buffer ++ preprocessText chunk) = .ok mts →
      addChunkE lexer st chunk = .ok (st', ts) →
      st.parseIncomplete = true →
      tailMatchesAny (st.buffer ++ preprocessText chunk) = true →
      ts.getLast? = some lt →
      lt.content ≠ "" →
      lt.incomplete = some true := by
  intro lexer st chunk mts st' ts lt hok hadd hpi htail hlast hcne
  have hts := tokensFromLexed_eq lexer st chunk mts st' ts hok hadd
  rw [hpi] at hts
  rw [show tokensFromLexed true (st.buffer ++ preprocessText chunk) mts =
      handleIncompleteMarkdown (st.buffer ++ preprocessText chunk)
        (convertTokens (processTokensWithDiagramDetection mts)) from rfl] at hts
  set conv := convertTokens (processTokensWithDiagramDetection mts) with hc
  rcases List.eq_nil_or_concat conv with hnil | ⟨xs, x, hcc⟩
  · rw [hnil] at hts
    subst hts
    simp [handleIncompleteMarkdown] at hlast
  · rw [List.concat_eq_append] at hcc
    rw [hcc, handleIncomplete_concat] at hts
    by_cases hxc : x.content = ""
    · rw [if_neg (by simp [hxc])] at hts
      subst hts
      rw [List.getLast?_concat] at hlast
      injection hlast with hlast
      subst hlast
      exact absurd hxc hcne
    · rw [if_pos (by simp [htail, hxc])] at hts
      subst hts
      rw [List.getLast?_concat] at hlast
      injection hlast with hlast
      subst hlast
      rfl

/-- Witness for the amended C4: buffer `**a` ends in an unterminated bold
run, the parse yields one text token with non-empty content, and it comes
back flagged provisional. -/
theorem c4_witness :
    ∃ st' ts lt,
      addChunkE (fun _ => Except.ok
        [MToken.mk "paragraph" "**a" "**a" "" 0
          [mkInline "text" "**a" "**a"] false [] none none])
        initParser "**a" = .ok (st', ts) ∧
      tailMatchesAny "**a" = true ∧
      ts.getLast? = some lt ∧ lt.content ≠ "" ∧ lt.incomplete = some true := by
  have hpre : ("" : String) ++ preprocessText "**a" = "**a" := by decide
  rcases hadd : addChunkE (fun _ => Except.ok
      [MToken.mk "paragraph" "**a" "**a" "" 0
        [mkInline "text" "**a" "**a"] false [] none none])
      initParser "**a" with e | ⟨st', ts⟩
  · have := addChunkE_isOk (fun _ => Except.ok
      [MToken.mk "paragraph" "**a" "**a" "" 0
        [mkInline "text" "**a" "**a"] false [] none none])
      initParser "**a"
    rw [hadd] at this
    exact absurd this (by simp [Except.isOk, Except.toBool])
  · have hts := tokensFromLexed_eq _ initParser "**a" _ st' ts rfl hadd
    have hts' : ts =
        [⟨TokenType.text, "**a", none, none, none, some true, some "**a"⟩] := by
      rw [hts]
      simp only [initParser]
      rw [hpre]
      rw [show tokensFromLexed true "**a"
          [MToken.mk "paragraph" "**a" "**a" "" 0
            [mkInline "text" "**a" "**a"] false [] none none] =
        handleIncompleteMarkdown "**a"
          (convertTokens (processTokensWithDiagramDetection
            [MToken.mk "paragraph" "**a" "**a" "" 0
              [mkInline "text" "**a" "**a"] false [] none none])) from rfl]
      have hcv : convertTokens (processTokensWithDiagramDetection
          [MToken.mk "paragraph" "**a" "**a" "" 0
            [mkInline "text" "**a" "**a"] false [] none none]) =
          [⟨TokenType.text, "**a", none, none, none, none, some "**a"⟩] := by
        simp [convertTokens, convertList, convertOne,
          processTokensWithDiagramDetection, processInlineTokens,
          flattenInlineTokens, detectDiagram, mkInline]
      rw [hcv]
      decide
    have hlast : ts.getLast? =
        some ⟨TokenType.text, "**a", none, none, none, some true, some "**a"⟩ := by
      rw [hts']
      rfl
    refine ⟨st', ts,
      ⟨TokenType.text, "**a", none, none, none, some true, some "**a"⟩,
      rfl, by decide, hlast, by decide, ?_⟩
    exact c4_amended_tail_provisional _ initParser "**a" _ st' ts
      ⟨TokenType.text, "**a", none, none, none, some true, some "**a"⟩
      rfl hadd rfl (by decide) hlast (by decide)

/-- Counterexample to C4 as stated: the buffer `* ` (an empty list item)
parses successfully to a single `listitem` token with empty content, the
buffer tail matches the unterminated-`*` signature, incompleteness handling
is enabled — yet the last token is not flagged provisional, because the
source only sets the flag when `lastToken.content` is truthy. -/
theorem c4_counterexample :
    ∃ ts,
      addChunkE (fun _ => Except.ok
        [MToken.mk "list" "" "* " "" 0 [] false [("", "* ")] none none])
        initParser "* " = Except.ok (⟨"* ", ts, true⟩, ts) ∧
      tailMatchesAny "* " = true ∧
      ts = [⟨TokenType.listitem, "", some 0, some false, none, none, some "* "⟩] := by
  refine ⟨[⟨TokenType.listitem, "", some 0, some false, none, none, some "* "⟩],
    ?_, by decide, rfl⟩
  have hpre : ("" : String) ++ preprocessText "* " = "* " := by decide
  simp only [addChunkE, initParser, hpre]
  simp [tokensFromLexed, convertTokens, convertList, convertOne,
    processTokensWithDiagramDetection, processInlineTokens, detectDiagram,
    handleIncompleteMarkdown]

theorem splitChar_ne_nil (sep : Char) (l : List Char) : splitChar sep l ≠ [] := by
  induction l with
  | nil => simp [splitChar]
  | cons c cs ih =>
    rcases h : splitChar sep cs with _ | ⟨r, rs⟩
    · exact absurd h ih
    · simp only [splitChar, h]
      split <;> simp

theorem splitChar_mem_not_mem (sep : Char) :
    ∀ (l : List Char) (x : List Char), x ∈ splitChar sep l → sep ∉ x := by
  intro l
  induction l with
  | nil =>
    intro x hx
    simp [splitChar] at hx
    subst hx
    simp
  | cons c cs ih =>
    intro x hx
    rcases h : splitChar sep cs with _ | ⟨r, rs⟩
    · exact absurd h (splitChar_ne_nil sep cs)
    · simp only [splitChar, h] at hx
      split at hx
      · rcases List.mem_cons.mp hx with hx | hx
        · subst hx; simp
        · exact ih x (by rw [h]; exact hx)
      · rcases List.mem_cons.mp hx with hx | hx
        · subst hx
          rename_i hcs
          rw [List.mem_cons]
          push_neg
          refine ⟨fun hsc => hcs (by simp [hsc]), ?_⟩
          exact ih r (by rw [h]; exact List.mem_cons_self r rs)
        · exact ih x (by rw [h]; exact List.mem_cons_of_mem r hx)

/-- Claim C6 as amended: on the fallback line-parser path every heading
token carries depth equal to the hash count of its line and has its
provisional flag set to `true` — the `!line.includes('\n')` approximation
is always true because lines produced by splitting the buffer on newlines
never contain a newline.  (The claim as stated says the flag is false; see
the counterexample.) -/
theorem c6_amended_fallback_heading :
    ∀ (buffer : String) (t : ParsedToken),
      t ∈ parsePartialTokens buffer →
      t.type = TokenType.heading →
      t.incomplete = some true ∧
      ∃ line ∈ (jsSplitOnChar '\n' buffer).filter (fun l => jsTrim l != ""),
        headingTest line = true ∧ t = parseIncompleteLine line ∧
        t.depth = some (leadingHashCount line) := by
  intro buffer t ht htype
  simp only [parsePartialTokens, List.mem_map] at ht
  obtain ⟨line, hline, hconv⟩ := ht
  have hnl : '\n' ∉ line.data := by
    have h1 : line ∈ jsSplitOnChar '\n' buffer := (List.mem_filter.mp hline).1
    simp only [jsSplitOnChar, List.mem_map] at h1
    obtain ⟨x, hx, hxe⟩ := h1
    have hld : line.data = x := by rw [← hxe]
    rw [hld]
    exact splitChar_mem_not_mem '\n' buffer.data x hx
  by_cases hht : headingTest line
  · subst hconv
    simp only [parseIncompleteLine, if_pos hht]
    refine ⟨by simp [hnl], line, hline, hht, ?_, ?_⟩
    · simp [parseIncompleteLine, if_pos hht]
    · simp [parseIncompleteLine, if_pos hht]
  · subst hconv
    simp only [parseIncompleteLine, if_neg hht] at htype
    split at htype
    · simp at htype
    · split at htype
      · simp at htype
      · split at htype
        · simp at htype
        · simp [parseInlineFormatting] at htype

/-- Counterexample to C6 as stated: the fallback parse of `# Hi` yields a
heading token whose provisional flag is `true`, not `false`. -/
theorem c6_counterexample :
    ∃ t, t ∈ parsePartialTokens "# Hi" ∧ t.type = TokenType.heading ∧
      t.incomplete = some true ∧ ¬ t.incomplete = some false :=
  ⟨⟨TokenType.heading, "Hi", some 1, none, none, some true, none⟩,
    by decide, rfl, rfl, by decide⟩

/-- Witness for the amended C6 at the concrete buffer `# Hi`. -/
theorem c6_witness :
    (⟨TokenType.heading, "Hi", some 1, none, none, some true, none⟩ :
        ParsedToken).incomplete = some true ∧
    ∃ line ∈ (jsSplitOnChar '\n' "# Hi").filter (fun l => jsTrim l != ""),
      headingTest line = true ∧
      (⟨TokenType.heading, "Hi", some 1, none, none, some true, none⟩ :
        ParsedToken) = parseIncompleteLine line ∧
      (⟨TokenType.heading, "Hi", some 1, none, none, some true, none⟩ :
        ParsedToken).depth = some (leadingHashCount line) :=
  c6_amended_fallback_heading "# Hi"
    ⟨TokenType.heading, "Hi", some 1, none, none, some true, none⟩
    (by decide) rfl

theorem parseRowsLoop_eq_filter (hn : Nat) :
    ∀ (ls : List String) (acc : List (List String)),
      parseRowsLoop hn acc ls =
        acc ++ (ls.map cleanedRowCells).filter (fun r => r.length == hn) := by
  intro ls
  induction ls with
  | nil => intro acc; simp [parseRowsLoop]
  | cons line rest ih =>
    intro acc
    simp only [parseRowsLoop, List.map_cons, List.filter_cons]
    split
    · rename_i hlen
      rw [ih (acc ++ [cleanedRowCells line])]
      simp [hlen]
    · rename_i hlen
      rw [ih acc]

/-- Claim C7: when a pipe-table string parses successfully, the resulting
row list is exactly the data lines' cleaned cell lists filtered by "cell
count equals header count" — a row is included iff its reconciled cell
count matches the header, and irreconcilable rows are dropped silently
(they simply do not appear; no error value is produced). -/
theorem c7_row_filter :
    ∀ (md : String) (td : TableData),
      parseMarkdownTable md = some td →
      td.headers = headersOf md ∧
      td.rows = ((dataLinesOf md).map cleanedRowCells).filter
        (fun r => r.length == td.headers.length) := by
  intro md td h
  simp only [parseMarkdownTable] at h
  split at h
  · exact absurd h (by simp)
  · split at h
    · exact absurd h (by simp)
    · split at h
      · exact absurd h (by simp)
      · injection h with h
        subst h
        refine ⟨rfl, ?_⟩
        exact parseRowsLoop_eq_filter (headersOf md).length (dataLinesOf md) []

/-- Witness for C7: the middle data line `| x |` has one cell against two
headers and is silently dropped; the surrounding rows survive. -/
theorem c7_witness :
    ∃ td,
      parseMarkdownTable
          "| a | b |\n| --- | --- |\n| 1 | 2 |\n| x |\n| 3 | 4 |" = some td ∧
      td.headers =
        headersOf "| a | b |\n| --- | --- |\n| 1 | 2 |\n| x |\n| 3 | 4 |" ∧
      td.rows =
        ((dataLinesOf "| a | b |\n| --- | --- |\n| 1 | 2 |\n| x |\n| 3 | 4 |").map
          cleanedRowCells).filter (fun r => r.length == td.headers.length) ∧
      td.rows = [["1", "2"], ["3", "4"]] :=
  ⟨⟨["a", "b"], [["1", "2"], ["3", "4"]]⟩, by decide,
    (c7_row_filter "| a | b |\n| --- | --- |\n| 1 | 2 |\n| x |\n| 3 | 4 |"
      ⟨["a", "b"], [["1", "2"], ["3", "4"]]⟩ (by decide)).1,
    (c7_row_filter "| a | b |\n| --- | --- |\n| 1 | 2 |\n| x |\n| 3 | 4 |"
      ⟨["a", "b"], [["1", "2"], ["3", "4"]]⟩ (by decide)).2,
    rfl⟩

theorem strData_append (s t : String) : (s ++ t).data = s.data ++ t.data := rfl

theorem splitChar_cons_sep (sep : Char) (rest : List Char) :
    splitChar sep (sep :: rest) = [] :: splitChar sep rest := by
  rcases h : splitChar sep rest with _ | ⟨r, rs⟩
  · exact absurd h (splitChar_ne_nil sep rest)
  · simp [splitChar, h]

theorem splitChar_cons_ne (sep c : Char) (rest : List Char) (hc : c ≠ sep) :
    splitChar sep (c :: rest) =
      (c :: (splitChar sep rest).headD []) :: (splitChar sep rest).tail := by
  rcases h : splitChar sep rest with _ | ⟨r, rs⟩
  · exact absurd h (splitChar_ne_nil sep rest)
  · simp [splitChar, h, hc]

theorem splitChar_no_sep (sep : Char) :
    ∀ (l : List Char), sep ∉ l → splitChar sep l = [l] := by
  intro l
  induction l with
  | nil => intro _; rfl
  | cons c cs ih =>
    intro h
    have hc : c ≠ sep := fun hcc => h (hcc ▸ List.mem_cons_self c cs)
    have hcs : sep ∉ cs := fun hm => h (List.mem_cons_of_mem c hm)
    rw [splitChar_cons_ne sep c cs hc, ih hcs]
    rfl

theorem splitChar_append (sep : Char) :
    ∀ (xs : List Char), sep ∉ xs → ∀ (rest : List Char),
      splitChar sep (xs ++ sep :: rest) = xs :: splitChar sep rest := by
  intro xs
  induction xs with
  | nil => intro _ rest; exact splitChar_cons_sep sep rest
  | cons x xs ih =>
    intro h rest
    have hx : x ≠ sep := fun hcc => h (hcc ▸ List.mem_cons_self x xs)
    have hxs : sep ∉ xs := fun hm => h (List.mem_cons_of_mem x hm)
    have hrec := ih hxs rest
    rw [List.cons_append, splitChar_cons_ne sep x (xs ++ sep :: rest) hx, hrec]
    rfl

theorem mkRowLine_data (cells : List String) :
    (mkRowLine cells).data =
      '|' :: ((' ' :: (joinSep " | " cells).data ++ [' ']) ++ ['|']) := by
  simp [mkRowLine, strData_append]

theorem joinSep_no_nl (cells : List String)
    (hc : ∀ c ∈ cells, '\n' ∉ c.data) : '\n' ∉ (joinSep " | " cells).data := by
  induction cells with
  | nil => simp [joinSep]
  | cons c cs ih =>
    rcases cs with _ | ⟨y, ys⟩
    · simpa [joinSep] using hc c (by simp)
    · have h1 : '\n' ∉ c.data := hc c (by simp)
      have h2 : '\n' ∉ (joinSep " | " (y :: ys)).data :=
        ih (fun x hx => hc x (by simp [hx]))
      simp only [joinSep, strData_append]
      intro hmem
      rcases List.mem_append.mp hmem with h | h
      · rcases List.mem_append.mp h with h | h
        · exact h1 h
        · simp at h
      · exact h2 h

theorem mkRowLine_no_nl (cells : List String)
    (hc : ∀ c ∈ cells, '\n' ∉ c.data) : '\n' ∉ (mkRowLine cells).data := by
  rw [mkRowLine_data]
  intro hmem
  rcases List.mem_cons.mp hmem with h | h
  · simp at h
  · rcases List.mem_append.mp h with h | h
    · rcases List.mem_cons.mp h with h | h
      · simp at h
      · rcases List.mem_append.mp h with h | h
        · exact joinSep_no_nl cells hc h
        · simp at h
    · simp at h

theorem jsTrimList_pipe_shape (l : List Char) :
    jsTrimList ('|' :: l ++ ['|']) = '|' :: l ++ ['|'] := by
  have hp : isJsWs '|' = false := by decide
  simp only [jsTrimList, List.cons_append]
  rw [List.dropWhile_cons_of_neg (by simp [hp])]
  have hrev : ('|' :: (l ++ ['|'])).reverse = '|' :: (l.reverse ++ ['|']) := by
    simp
  rw [hrev, List.dropWhile_cons_of_neg (by simp [hp])]
  simp

theorem join_pipe_shape (lines : List String) :
    lines ≠ [] → (∀ l ∈ lines, ∃ m, l.data = '|' :: m ++ ['|']) →
    ∃ mid, (joinSep "\n" lines).data = '|' :: mid ++ ['|'] := by
  induction lines with
  | nil => intro h _; exact absurd rfl h
  | cons x xs ih =>
    intro _ hshape
    rcases xs with _ | ⟨y, ys⟩
    · simpa [joinSep] using hshape x (by simp)
    · obtain ⟨m1, hm1⟩ := hshape x (by simp)
      obtain ⟨mid2, hmid2⟩ := ih (by simp) (fun l hl => hshape l (by simp [hl]))
      refine ⟨m1 ++ ['|'] ++ '\n' :: '|' :: mid2, ?_⟩
      simp only [joinSep, strData_append, hm1, hmid2]
      simp

theorem splitChar_join_nl (lines : List String) :
    lines ≠ [] → (∀ l ∈ lines, '\n' ∉ l.data) →
    splitChar '\n' (joinSep "\n" lines).data = lines.map String.data := by
  induction lines with
  | nil => intro h _; exact absurd rfl h
  | cons x xs ih =>
    intro _ hnl
    rcases xs with _ | ⟨y, ys⟩
    · simp only [joinSep, List.map]
      exact splitChar_no_sep '\n' x.data (hnl x (by simp))
    · have h1 : '\n' ∉ x.data := hnl x (by simp)
      have h2 := ih (by simp) (fun l hl => hnl l (by simp [hl]))
      simp only [joinSep, strData_append]
      have hshape : x.data ++ "\n".data ++ (joinSep "\n" (y :: ys)).data =
          x.data ++ '\n' :: (joinSep "\n" (y :: ys)).data := by
        simp
      rw [hshape, splitChar_append '\n' x.data h1, h2]
      rfl

theorem jsTrim_string_eq (s : String) (h : jsTrimList s.data = s.data) :
    jsTrim s = s := by
  simp only [jsTrim, h]

theorem mkRowLine_pipe_form (cells : List String) :
    ∃ m, (mkRowLine cells).data = '|' :: m ++ ['|'] := by
  refine ⟨' ' :: (joinSep " | " cells).data ++ [' '], ?_⟩
  rw [mkRowLine_data]
  simp

theorem string_ne_empty_of_data (s : String) (h : s.data ≠ []) : s ≠ "" := by
  intro hc
  rw [hc] at h
  exact h rfl

theorem bne_empty_of_ne (s : String) (h : s ≠ "") : (s != "") = true := by
  simpa using h

/-- The non-blank-line filter and the leading trim of `tableLines` are the
identity on a newline-joined list of pipe-delimited row lines. -/
theorem tableLines_of_rowlines (lines : List String)
    (hne : lines ≠ [])
    (hshape : ∀ l ∈ lines, ∃ cs, l = mkRowLine cs ∧ '\n' ∉ l.data) :
    tableLines (joinSep "\n" lines) = lines := by
  have hpipe : ∀ l ∈ lines, ∃ m, l.data = '|' :: m ++ ['|'] := by
    intro l hl
    obtain ⟨cs, hcs, _⟩ := hshape l hl
    rw [hcs]
    exact mkRowLine_pipe_form cs
  have hnl : ∀ l ∈ lines, '\n' ∉ l.data := by
    intro l hl
    obtain ⟨cs, _, h⟩ := hshape l hl
    exact h
  obtain ⟨mid, hmid⟩ := join_pipe_shape lines hne hpipe
  have htrim : jsTrim (joinSep "\n" lines) = joinSep "\n" lines := by
    apply jsTrim_string_eq
    rw [hmid]
    exact jsTrimList_pipe_shape mid
  simp only [tableLines, htrim]
  have hsplit : jsSplitOnChar '\n' (joinSep "\n" lines) = lines := by
    simp only [jsSplitOnChar, splitChar_join_nl lines hne hnl]
    rw [List.map_map]
    have hid : (String.mk ∘ String.data) = id := by
      funext s
      cases s
      rfl
    rw [hid, List.map_id]
  rw [hsplit]
  apply List.filter_eq_self.mpr
  intro a ha
  obtain ⟨m, hm⟩ := hpipe a ha
  have htr : jsTrim a = a :=
    jsTrim_string_eq a (by rw [hm]; exact jsTrimList_pipe_shape m)
  rw [htr]
  exact bne_empty_of_ne a (string_ne_empty_of_data a (by rw [hm]; simp))

theorem splitInner (cells : List String) :
    cells ≠ [] → (∀ c ∈ cells, '|' ∉ c.data) →
    splitChar '|' ((' ' :: (joinSep " | " cells).data) ++ [' ', '|']) =
      cells.map (fun c => (' ' :: c.data) ++ [' ']) ++ [[]] := by
  induction cells with
  | nil => intro h _; exact absurd rfl h
  | cons c cs ih =>
    intro _ hc
    have hc1 : '|' ∉ c.data := hc c (by simp)
    have hseg : '|' ∉ (' ' :: c.data) ++ [' '] := by
      intro hm
      rcases List.mem_append.mp hm with h | h
      · rcases List.mem_cons.mp h with h | h
        · simp at h
        · exact hc1 h
      · simp at h
    rcases cs with _ | ⟨y, ys⟩
    · have hassoc : (' ' :: (joinSep " | " [c]).data) ++ [' ', '|'] =
          ((' ' :: c.data) ++ [' ']) ++ '|' :: [] := by
        simp [joinSep]
      rw [hassoc, splitChar_append '|' _ hseg]
      rfl
    · have hrec := ih (by simp) (fun x hx => hc x (by simp [hx]))
      have hassoc : (' ' :: (joinSep " | " (c :: y :: ys)).data) ++ [' ', '|'] =
          ((' ' :: c.data) ++ [' ']) ++
            '|' :: ((' ' :: (joinSep " | " (y :: ys)).data) ++ [' ', '|']) := by
        simp only [joinSep, strData_append]
        simp
      rw [hassoc, splitChar_append '|' _ hseg, hrec]
      rfl

theorem splitChar_mkRowLine (cells : List String) (hne : cells ≠ [])
    (hc : ∀ c ∈ cells, '|' ∉ c.data) :
    splitChar '|' (mkRowLine cells).data =
      [] :: (cells.map (fun c => (' ' :: c.data) ++ [' ']) ++ [[]]) := by
  rw [mkRowLine_data, splitChar_cons_sep]
  have hassoc : ((' ' :: (joinSep " | " cells).data ++ [' ']) ++ ['|']) =
      (' ' :: (joinSep " | " cells).data) ++ [' ', '|'] := by
    simp
  rw [hassoc, splitInner cells hne hc]

theorem dropEdgesEmpty_shape (mids : List String) :
    dropEdgesEmpty ("" :: mids ++ [""]) = mids := by
  simp [dropEdgesEmpty, List.cons_append, List.getLast?_concat,
    List.dropLast_concat]

theorem dropEdges_split_mkRowLine (cells : List String) (hne : cells ≠ [])
    (hc : ∀ c ∈ cells, '|' ∉ c.data) :
    dropEdgesEmpty ((jsSplitOnChar '|' (mkRowLine cells)).map jsTrim) =
      cells.map (fun c => jsTrim (String.mk ((' ' :: c.data) ++ [' ']))) := by
  simp only [jsSplitOnChar, splitChar_mkRowLine cells hne hc]
  have hstep :
      ((([] :: (cells.map (fun c => (' ' :: c.data) ++ [' ']) ++ [[]])).map
        String.mk).map jsTrim) =
      "" :: (cells.map (fun c => jsTrim (String.mk ((' ' :: c.data) ++ [' '])))
        ++ [""]) := by
    simp only [List.map_cons, List.map_append, List.map_map, List.map_nil]
    rfl
  rw [hstep]
  have hfin := dropEdgesEmpty_shape
    (cells.map (fun c => jsTrim (String.mk ((' ' :: c.data) ++ [' ']))))
  simpa using hfin

theorem cellOkB_props (c : String) (h : cellOkB c = true) :
    '|' ∉ (cellText c).data ∧ '\n' ∉ (cellText c).data := by
  simp only [cellOkB, Bool.and_eq_true, decide_eq_true_eq] at h
  exact h

set_option maxHeartbeats 2000000 in
theorem parseMarkdownTable_canonical (header : List String)
    (rows : List (List String)) (hne : header ≠ []) (rne : rows ≠ [])
    (hh : header.all cellOkB = true)
    (hr : rows.all (fun r => r.length == header.length && r.all cellOkB) = true) :
    ∃ td,
      parseMarkdownTable (joinSep "\n"
        ([mkRowLine (header.map cellText),
          mkRowLine ((header.map cellText).map (fun _ => "---"))] ++
          rows.map (fun r => mkRowLine (r.map cellText)))) = some td ∧
      td.headers.length = header.length ∧ td.rows.length = rows.length := by
  have hhok : ∀ c ∈ header, '|' ∉ (cellText c).data ∧ '\n' ∉ (cellText c).data :=
    fun c hc => cellOkB_props c (List.all_eq_true.mp hh c hc)
  have hrok : ∀ r ∈ rows, r.length = header.length ∧
      ∀ c ∈ r, '|' ∉ (cellText c).data ∧ '\n' ∉ (cellText c).data := by
    intro r hrm
    have := List.all_eq_true.mp hr r hrm
    simp only [Bool.and_eq_true, Nat.beq_eq_true_eq] at this
    exact ⟨this.1, fun c hc => cellOkB_props c (List.all_eq_true.mp this.2 c hc)⟩
  have hdp : ∀ c ∈ header.map cellText, '|' ∉ c.data := by
    intro c hc
    rw [List.mem_map] at hc
    obtain ⟨x, hx, rfl⟩ := hc
    exact (hhok x hx).1
  have hdn : ∀ c ∈ header.map cellText, '\n' ∉ c.data := by
    intro c hc
    rw [List.mem_map] at hc
    obtain ⟨x, hx, rfl⟩ := hc
    exact (hhok x hx).2
  have hsn : ∀ c ∈ (header.map cellText).map (fun _ => "---"), '\n' ∉ c.data := by
    intro c hc
    rw [List.mem_map] at hc
    obtain ⟨x, hx, rfl⟩ := hc
    decide
  have hdrne : header.map cellText ≠ [] := by
    simpa using hne
  have hposh : 0 < header.length := List.length_pos.mpr hne
  have hshape : ∀ l ∈ ([mkRowLine (header.map cellText),
      mkRowLine ((header.map cellText).map (fun _ => "---"))] ++
      rows.map (fun r => mkRowLine (r.map cellText))),
      ∃ cs, l = mkRowLine cs ∧ '\n' ∉ l.data := by
    intro l hl
    rcases List.mem_append.mp hl with h | h
    · rcases List.mem_cons.mp h with h | h
      · exact ⟨_, h, h ▸ mkRowLine_no_nl _ hdn⟩
      · rcases List.mem_cons.mp h with h | h
        · exact ⟨_, h, h ▸ mkRowLine_no_nl _ hsn⟩
        · simp at h
    · rw [List.mem_map] at h
      obtain ⟨r, hrm, rfl⟩ := h
      refine ⟨r.map cellText, rfl, mkRowLine_no_nl _ ?_⟩
      intro c hc
      rw [List.mem_map] at hc
      obtain ⟨x, hx, rfl⟩ := hc
      exact ((hrok r hrm).2 x hx).2
  have hTL := tableLines_of_rowlines _ (by simp) hshape
  have hlen3 : ¬ (tableLines (joinSep "\n"
      ([mkRowLine (header.map cellText),
        mkRowLine ((header.map cellText).map (fun _ => "---"))] ++
        rows.map (fun r => mkRowLine (r.map cellText))))).length < 3 := by
    rw [hTL]
    have : 0 < rows.length := List.length_pos.mpr rne
    simp only [List.length_append, List.length_cons, List.length_nil,
      List.length_map]
    omega
  have hHlen : (headersOf (joinSep "\n"
      ([mkRowLine (header.map cellText),
        mkRowLine ((header.map cellText).map (fun _ => "---"))] ++
        rows.map (fun r => mkRowLine (r.map cellText))))).length =
      header.length := by
    simp only [headersOf, hTL]
    rw [show ([mkRowLine (header.map cellText),
        mkRowLine ((header.map cellText).map (fun _ => "---"))] ++
        rows.map (fun r => mkRowLine (r.map cellText))).headD "" =
      mkRowLine (header.map cellText) from rfl]
    rw [dropEdges_split_mkRowLine _ hdrne hdp]
    simp
  have hHguard : ¬ ((headersOf (joinSep "\n"
      ([mkRowLine (header.map cellText),
        mkRowLine ((header.map cellText).map (fun _ => "---"))] ++
        rows.map (fun r => mkRowLine (r.map cellText))))).length == 0) = true := by
    rw [hHlen]
    simpa using Nat.pos_iff_ne_zero.mp hposh
  have hDL : dataLinesOf (joinSep "\n"
      ([mkRowLine (header.map cellText),
        mkRowLine ((header.map cellText).map (fun _ => "---"))] ++
        rows.map (fun r => mkRowLine (r.map cellText)))) =
      rows.map (fun r => mkRowLine (r.map cellText)) := by
    simp only [dataLinesOf, hTL]
    rfl
  have hrowlen : ∀ r ∈ rows,
      (cleanedRowCells (mkRowLine (r.map cellText))).length = header.length := by
    intro r hrm
    obtain ⟨hlenr, hcells⟩ := hrok r hrm
    have hrne' : r.map cellText ≠ [] := by
      simp only [ne_eq, List.map_eq_nil_iff]
      intro hcon
      rw [hcon] at hlenr
      simp at hlenr
      omega
    have hp : ∀ c ∈ r.map cellText, '|' ∉ c.data := by
      intro c hc
      rw [List.mem_map] at hc
      obtain ⟨x, hx, rfl⟩ := hc
      exact (hcells x hx).1
    simp only [cleanedRowCells]
    rw [dropEdges_split_mkRowLine _ hrne' hp]
    simp [hlenr]
  have hloop : parseRowsLoop (headersOf (joinSep "\n"
      ([mkRowLine (header.map cellText),
        mkRowLine ((header.map cellText).map (fun _ => "---"))] ++
        rows.map (fun r => mkRowLine (r.map cellText))))).length []
      (dataLinesOf (joinSep "\n"
        ([mkRowLine (header.map cellText),
          mkRowLine ((header.map cellText).map (fun _ => "---"))] ++
          rows.map (fun r => mkRowLine (r.map cellText))))) =
      (rows.map (fun r => mkRowLine (r.map cellText))).map cleanedRowCells := by
    rw [hDL, parseRowsLoop_eq_filter]
    rw [List.nil_append]
    apply List.filter_eq_self.mpr
    intro a ha
    rw [List.map_map, List.mem_map] at ha
    obtain ⟨r, hrm, rfl⟩ := ha
    simp only [Function.comp]
    rw [hrowlen r hrm, hHlen]
    simp
  refine ⟨⟨headersOf _, (rows.map (fun r => mkRowLine (r.map cellText))).map
    cleanedRowCells⟩, ?_, hHlen, by simp⟩
  simp only [parseMarkdownTable]
  rw [if_neg hlen3, if_neg hHguard, hloop]
  rw [if_neg (by
    simp only [List.length_map]
    simpa using Nat.pos_iff_ne_zero.mp (List.length_pos.mpr rne))]

set_option maxHeartbeats 1000000 in
theorem convertTokens_table (rw' : String) (header : List String)
    (rows : List (List String)) :
    convertTokens (processTokensWithDiagramDetection
      [MToken.mk "table" "" rw' "" 0 [] false [] (some header) (some rows)]) =
    [⟨TokenType.table,
      convertTableTokenToMarkdown
        (MToken.mk "table" "" rw' "" 0 [] false [] (some header) (some rows)),
      none, none, none, none, some rw'⟩] := by
  simp [convertTokens, convertList, convertOne,
    processTokensWithDiagramDetection, processInlineTokens, detectDiagram]

/-- Claim C5: feeding a complete valid Markdown table (a lexed table node
with a non-empty header, non-empty rectangular rows, and pipe/newline-free
cell texts) produces a single `table`-kind token whose content is the
canonical pipe-delimited serialisation, and re-parsing that content as a
Markdown table yields the same header count and row count. -/
theorem c5_table_round_trip :
    ∀ (lexer : Lexer) (st : ParserState) (chunk : String) (rw' : String)
      (header : List String) (rows : List (List String))
      (st' : ParserState) (ts : List ParsedToken),
      header ≠ [] → rows ≠ [] →
      header.all cellOkB = true →
      rows.all (fun r => r.length == header.length && r.all cellOkB) = true →
      lexer (st.buffer ++ preprocessText chunk) =
        .ok [MToken.mk "table" "" rw' "" 0 [] false [] (some header) (some rows)] →
      addChunkE lexer st chunk = .ok (st', ts) →
      ts.map (fun t => (t.type, t.content)) =
        [(TokenType.table, convertTableTokenToMarkdown
          (MToken.mk "table" "" rw' "" 0 [] false [] (some header) (some rows)))] ∧
      ∃ td,
        parseMarkdownTable (convertTableTokenToMarkdown
          (MToken.mk "table" "" rw' "" 0 [] false [] (some header) (some rows))) =
          some td ∧
        td.headers.length = header.length ∧ td.rows.length = rows.length := by
  intro lexer st chunk rw' header rows st' ts hne rne hh hr hok hadd
  have hcanon : convertTableTokenToMarkdown
      (MToken.mk "table" "" rw' "" 0 [] false [] (some header) (some rows)) =
      joinSep "\n"
        ([mkRowLine (header.map cellText),
          mkRowLine ((header.map cellText).map (fun _ => "---"))] ++
          rows.map (fun r => mkRowLine (r.map cellText))) := rfl
  constructor
  · have hts := tokensFromLexed_eq lexer st chunk _ st' ts hok hadd
    rw [hts]
    simp only [tokensFromLexed]
    split
    · rw [handleIncomplete_map_tc, convertTokens_table]
      rfl
    · rw [convertTokens_table]
      rfl
  · have := parseMarkdownTable_canonical header rows hne rne hh hr
    rw [← hcanon] at this
    exact this

/-- Witness for C5 at the spec's concrete example table. -/
theorem c5_witness :
    ∃ st' ts,
      addChunkE (fun _ => Except.ok
        [MToken.mk "table" "" "| a | b |\n|---|---|\n| 1 | 2 |" "" 0 [] false []
          (some ["a", "b"]) (some [["1", "2"]])])
        initParser "| a | b |\n|---|---|\n| 1 | 2 |" = .ok (st', ts) ∧
      (ts.map (fun t => (t.type, t.content)) =
        [(TokenType.table, convertTableTokenToMarkdown
          (MToken.mk "table" "" "| a | b |\n|---|---|\n| 1 | 2 |" "" 0 [] false []
            (some ["a", "b"]) (some [["1", "2"]])))] ∧
       ∃ td,
        parseMarkdownTable (convertTableTokenToMarkdown
          (MToken.mk "table" "" "| a | b |\n|---|---|\n| 1 | 2 |" "" 0 [] false []
            (some ["a", "b"]) (some [["1", "2"]]))) = some td ∧
        td.headers.length = (["a", "b"] : List String).length ∧
        td.rows.length = ([["1", "2"]] : List (List String)).length) := by
  rcases hadd : addChunkE (fun _ => Except.ok
      [MToken.mk "table" "" "| a | b |\n|---|---|\n| 1 | 2 |" "" 0 [] false []
        (some ["a", "b"]) (some [["1", "2"]])])
      initParser "| a | b |\n|---|---|\n| 1 | 2 |" with e | ⟨st', ts⟩
  · have := addChunkE_isOk (fun _ => Except.ok
      [MToken.mk "table" "" "| a | b |\n|---|---|\n| 1 | 2 |" "" 0 [] false []
        (some ["a", "b"]) (some [["1", "2"]])])
      initParser "| a | b |\n|---|---|\n| 1 | 2 |"
    rw [hadd] at this
    exact absurd this (by simp [Except.isOk, Except.toBool])
  · exact ⟨st', ts, rfl,
      c5_table_round_trip _ initParser "| a | b |\n|---|---|\n| 1 | 2 |" _
        ["a", "b"] [["1", "2"]] st' ts (by decide) (by decide) (by decide)
        (by decide) rfl hadd⟩
